import Mathlib

/-!
Verification of the block-synchronization engine (`downloader.go`, package
`blockchain`) of the fractal repository.

The Go source is shallowly embedded: hashes are modelled as `Nat`
(`common.Hash` is an opaque 256-bit value compared only for equality),
block numbers as `Nat` (they are `uint64` in the source; wherever a
subtraction can underflow in `uint64`, the embedding either reproduces the
wrapped behaviour explicitly or states its validity domain in a comment),
and the bounded set `knownBlocks` (a `mapset.Set`) as a duplicate-free
`List Nat` whose `Pop` removes the head.

Stateful Go code becomes explicit state passing; the network is modelled by
reply oracles.  The block-hash request handler and the chain store
(`HasBlock`) are not part of the source file and are modelled from the
spec, as marked on their definitions.
-/

namespace Fractal

/-- `maxKnownBlocks = 1024` from the source. -/
def maxKnownBlocks : Nat := 1024

/-- Payload of a `NewBlockHashesMsg` (`NewBlockHashesData` in the source):
head hash, head number and total difficulty. -/
structure NewBlockHashesData where
  Hash : Nat
  Number : Nat
  TD : Nat
  deriving Repr, DecidableEq

/-- The gossip-relevant state of a `Downloader`: the `maxNumber` watermark
and the bounded known-hash set `knownBlocks` (modelled as a list of
distinct hashes; `Pop` removes the head). -/
structure GossipState where
  maxNumber : Nat
  knownBlocks : List Nat
  deriving Repr, DecidableEq

/-- `for dl.knownBlocks.Cardinality() >= maxKnownBlocks { dl.knownBlocks.Pop() }`
from `Downloader.broadcastStatus`: evict elements until the cardinality is
below the bound. -/
def evictLoop : List Nat → List Nat
  | [] => []
  | h :: t => if (h :: t).length ≥ maxKnownBlocks then evictLoop t else h :: t

/-- `mapset.Set.Add`: adding an element already in the set leaves it
unchanged. -/
def setAdd (l : List Nat) (x : Nat) : List Nat :=
  if l.contains x then l else x :: l

/-- `Downloader.broadcastStatus` (lines 120-137): drop the announcement when
its number is at most `maxNumber` and the hash is already known; otherwise
evict down to the capacity bound, record the hash, set `maxNumber` to the
announced number and forward.  The returned `Bool` is `true` iff a message
was sent to the broadcast station. -/
def broadcastStatus (s : GossipState) (bh : NewBlockHashesData) : GossipState × Bool :=
  if bh.Number ≤ s.maxNumber && s.knownBlocks.contains bh.Hash then
    (s, false)
  else
    ({ maxNumber := bh.Number,
       knownBlocks := setAdd (evictLoop s.knownBlocks) bh.Hash }, true)

theorem evictLoop_length_le (l : List Nat) : (evictLoop l).length ≤ maxKnownBlocks - 1 := by
  induction l with
  | nil => simp [evictLoop, maxKnownBlocks]
  | cons h t ih =>
      rw [evictLoop]
      split
      · exact ih
      · next hlt =>
          simp only [List.length_cons] at *
          omega

theorem setAdd_length_le (l : List Nat) (x : Nat) :
    (setAdd l x).length ≤ l.length + 1 := by
  unfold setAdd
  split <;> simp

theorem setAdd_contains (l : List Nat) (x : Nat) :
    (setAdd l x).contains x = true := by
  unfold setAdd
  split
  · assumption
  · simp

/-- C6: `broadcastStatus` forwards an announcement exactly when it is not
the case that both its number is at most the current `maxNumber` watermark
and its hash is already in `knownBlocks`; and every forwarded
announcement's hash ends up in `knownBlocks` (so in particular gossiping a
known hash at a number at most the watermark sends nothing). -/
theorem broadcastStatus_forward_iff (s : GossipState) (bh : NewBlockHashesData) :
    ((broadcastStatus s bh).2
        = !(bh.Number ≤ s.maxNumber && s.knownBlocks.contains bh.Hash))
    ∧ ((!(broadcastStatus s bh).2
        || (broadcastStatus s bh).1.knownBlocks.contains bh.Hash) = true) := by
  unfold broadcastStatus
  split
  · next hcond => exact ⟨by rw [hcond]; rfl, by rfl⟩
  · next hcond =>
      rw [Bool.not_eq_true] at hcond
      refine ⟨by rw [hcond]; rfl, ?_⟩
      simpa using setAdd_contains (evictLoop s.knownBlocks) bh.Hash

/-- C7 (counterexample): the `maxNumber` watermark is not monotone.  From
the state with watermark 5 and known hash 10, the announcement
`(hash 7, number 3, td 0)` escapes the dedup check (its hash is unknown)
and the forward path sets `maxNumber` to 3, strictly below 5. -/
theorem broadcastStatus_maxNumber_decreases :
    (broadcastStatus ⟨5, [10]⟩ ⟨7, 3, 0⟩).1.maxNumber
      < (GossipState.mk 5 [10]).maxNumber := by decide

/-- C7 (amended): `maxNumber` equals the number of the last forwarded
announcement: a dropped announcement leaves it unchanged, and a forwarded
one overwrites it with the announced number — which may be smaller, so the
watermark is not monotone. -/
theorem broadcastStatus_maxNumber_eq (s : GossipState) (bh : NewBlockHashesData) :
    (broadcastStatus s bh).1.maxNumber
      = if bh.Number ≤ s.maxNumber && s.knownBlocks.contains bh.Hash
        then s.maxNumber else bh.Number := by
  unfold broadcastStatus
  split <;> simp_all

/-- C10: `broadcastStatus` preserves the capacity invariant of the
known-hash set: if its cardinality is at most 1024 before the call it is at
most 1024 after it, because the forward path evicts elements until the
cardinality is strictly below `maxKnownBlocks` before adding the hash. -/
theorem broadcastStatus_card_le (s : GossipState) (bh : NewBlockHashesData)
    (h : s.knownBlocks.length ≤ maxKnownBlocks) :
    (broadcastStatus s bh).1.knownBlocks.length ≤ maxKnownBlocks := by
  unfold broadcastStatus
  split
  · simpa using h
  · have h1 := evictLoop_length_le s.knownBlocks
    have h2 := setAdd_length_le (evictLoop s.knownBlocks) bh.Hash
    simp only [maxKnownBlocks] at *
    omega

/-- Closed witness for C10 at a concrete state. -/
theorem broadcastStatus_card_le_witness :
    (GossipState.mk 0 [5]).knownBlocks.length ≤ maxKnownBlocks ∧
    (broadcastStatus ⟨0, [5]⟩ ⟨1, 1, 0⟩).1.knownBlocks.length ≤ maxKnownBlocks :=
  ⟨by decide, broadcastStatus_card_le ⟨0, [5]⟩ ⟨1, 1, 0⟩ (by decide)⟩

/-! ## Ancestor search (`Downloader.findAncestor`, lines 277-342)

The search talks to one fixed remote peer.  A configuration holds the local
canonical chain (hash at each height plus head height) and the remote
chain.  `HasBlock` and the remote block-hash request handler are
collaborators that are not part of this source file; they are modelled
from the spec. -/

/-- One ancestor search / download round: local canonical chain `lc` with
head height `localHead`, fixed remote chain `pc` with head height
`peerHead`.  Values of `lc`/`pc` are block hashes. -/
structure SyncConfig where
  lc : Nat → Nat
  localHead : Nat
  pc : Nat → Nat
  peerHead : Nat

/-- Modelled from the spec: `BlockChain.HasBlock` of the chain-store
collaborator (`has_block(hash, number)`): the local chain contains the
block iff the height is at most the local head and the canonical hash at
that height matches. -/
def HasBlock (cfg : SyncConfig) (hash number : Nat) : Bool :=
  number ≤ cfg.localHead && cfg.lc number == hash

/-- Modelled from the spec: the remote peer's handler for
`DownloaderGetBlockHashMsg` (`get-hashes(number, amount, skip, reverse)`):
`amount` hashes starting at `number`, stepping by `skip+1`, forward or
reverse, truncated to the heights the fixed remote chain actually has
(between 0 and `peerHead`). -/
def getBlockHashesReply (cfg : SyncConfig) (number amount skip : Nat) (reverse : Bool) :
    List Nat :=
  (List.range amount).filterMap fun i =>
    if reverse then
      if i * (skip + 1) ≤ number then some (cfg.pc (number - i * (skip + 1))) else none
    else
      if number + i * (skip + 1) ≤ cfg.peerHead then
        some (cfg.pc (number + i * (skip + 1)))
      else none

/-- State threaded through the closure passed to `sort.Search` in
`findAncestor`: the captured `err` and `luckResult` variables (`luckResult`
is a `uint64` whose zero value means "unset", exactly as in the source).
`probes` is a ghost log of the probed heights, newest first; it is not in
the source and has no effect on control flow — it only lets probe-order
properties be stated. -/
structure ProbeState where
  err : Bool
  luck : Nat
  probes : List Nat
  deriving Repr, DecidableEq

/-- The closure passed to `sort.Search` (lines 303-327): once `err` or
`luckResult` is set it answers `false` without probing; otherwise it
requests 2 hashes at `targetNumber = n + searchStart`, errors on an empty
reply, records a lucky hit when the reply is exactly `[h0, h1]` with
`HasBlock h0 ∧ ¬HasBlock h1`, and otherwise answers `!hasBlock0`. -/
def searchProbe (cfg : SyncConfig) (searchStart : Nat) (st : ProbeState) (n : Nat) :
    ProbeState × Bool :=
  if st.err || st.luck != 0 then (st, false)
  else
    let targetNumber := n + searchStart
    let hashes := getBlockHashesReply cfg targetNumber 2 0 false
    let st := { st with probes := targetNumber :: st.probes }
    match hashes with
    | [] => ({ st with err := true }, false)
    | [h0] => (st, !(HasBlock cfg h0 targetNumber))
    | [h0, h1] =>
        if HasBlock cfg h0 targetNumber && !(HasBlock cfg h1 (targetNumber + 1)) then
          ({ st with luck := targetNumber }, false)
        else (st, !(HasBlock cfg h0 targetNumber))
    | h0 :: _ :: _ :: _ => (st, !(HasBlock cfg h0 targetNumber))

/-- Go's `sort.Search(n, f)` binary search (`i, j := 0, n`;
`h := (i + j) / 2`; `f(h)` narrows to `[i, h]` or `[h+1, j]`), threaded
through the stateful probe closure.  `fuel` bounds the number of
iterations; since the gap `j - i` shrinks every iteration, any
`fuel ≥ j - i` gives exactly the source's behaviour. -/
def goSearch (f : ProbeState → Nat → ProbeState × Bool) :
    Nat → ProbeState → Nat → Nat → ProbeState × Nat
  | 0, st, i, _ => (st, i)
  | fuel + 1, st, i, j =>
    if i < j then
      let m := (i + j) / 2
      let r := f st m
      if r.2 then goSearch f fuel r.1 i m else goSearch f fuel r.1 (m + 1) j
    else (st, i)

/-- The phase-1 walk of `findAncestor` (lines 291-295): scan the reverse
reply from the tip downward and return the first height whose hash the
local chain has. -/
def phase1Scan (cfg : SyncConfig) (headNumber : Nat) : List Nat → Nat → Option Nat
  | [], _ => none
  | hash :: rest, i =>
    if HasBlock cfg hash (headNumber - i) then some (headNumber - i)
    else phase1Scan cfg headNumber rest (i + 1)

/-- The binary-search loop of `findAncestor` (lines 299-339), one fuel unit
per outer iteration (`none` = out of fuel).  `searchLength` is
`headNumber - searchStart + 1` (`uint64`); written `headNumber + 1 -
searchStart`, which is exact whenever `searchStart ≤ headNumber + 1`.
When `searchStart = 0`, the source's `headNumber = searchStart - 1` wraps
to `2^64 - 1` and the loop can never terminate afterwards (every later
`searchLength` is `0 mod 2^64`, `sort.Search(0) = 0`); that divergence is
modelled by `none`. -/
def ancestorLoop (cfg : SyncConfig) : Nat → Nat → Nat → Option (Except String Nat)
  | 0, _, _ => none
  | fuel + 1, headNumber, searchStart =>
    if headNumber = 0 then some (Except.ok 0)
    else
      let searchLength := headNumber + 1 - searchStart
      let sr := goSearch (searchProbe cfg searchStart) searchLength ⟨false, 0, []⟩ 0 searchLength
      if sr.1.err then some (Except.error "wrong length of block hash")
      else if sr.1.luck != 0 then some (Except.ok sr.1.luck)
      else if sr.2 > 0 then some (Except.ok (sr.2 + searchStart - 1))
      else if searchStart = 0 then none
      else ancestorLoop cfg fuel (searchStart - 1) (searchStart / 2)

/-- `Downloader.findAncestor` (lines 277-342).  The phase-1 request length
`headNumber - searchStart + 1 + 1` capped at 32 (`uint64`) is written
`min (headNumber + 2 - searchStart) 32`, exact whenever
`searchStart ≤ headNumber + 2`. -/
def findAncestor (cfg : SyncConfig) (fuel headNumber searchStart : Nat) :
    Option (Except String Nat) :=
  if headNumber < 1 then some (Except.ok 0)
  else
    let searchLength := min (headNumber + 2 - searchStart) 32
    let hashes := getBlockHashesReply cfg headNumber searchLength 0 true
    match phase1Scan cfg headNumber hashes 0 with
    | some a => some (Except.ok a)
    | none => ancestorLoop cfg fuel (headNumber - hashes.length) (searchStart / 2)

/-- The lucky-hit condition at height `t`, as the source tests it (line
320): the reply to a 2-hash forward probe at `t` has exactly two entries,
the local chain has the first at `t` and lacks the second at `t+1`. -/
def luckyAt (cfg : SyncConfig) (t : Nat) : Bool :=
  match getBlockHashesReply cfg t 2 0 false with
  | [h0, h1] => HasBlock cfg h0 t && !(HasBlock cfg h1 (t + 1))
  | _ => false

theorem HasBlock_above_head (cfg : SyncConfig) (hash number : Nat)
    (h : cfg.localHead < number) : HasBlock cfg hash number = false := by
  unfold HasBlock
  have : decide (number ≤ cfg.localHead) = false := by simp; omega
  rw [this, Bool.false_and]

/-- The reverse skip-0 reply: the hashes of heights `hN, hN-1, …`, `amt`
of them, truncated at genesis. -/
theorem reply_reverse_skip0 (cfg : SyncConfig) (hN : Nat) :
    ∀ amt, getBlockHashesReply cfg hN amt 0 true
      = (List.range (min amt (hN + 1))).map (fun i => cfg.pc (hN - i)) := by
  intro amt
  induction amt with
  | zero => simp [getBlockHashesReply]
  | succ n ih =>
      unfold getBlockHashesReply at ih ⊢
      rw [List.range_succ, List.filterMap_append, ih]
      by_cases hn : n ≤ hN
      · have hmin1 : min (n + 1) (hN + 1) = min n (hN + 1) + 1 := by omega
        have hmin2 : min n (hN + 1) = n := by omega
        rw [hmin1, hmin2, List.range_succ, List.map_append]
        simp [hn, hmin2]
      · have hmin1 : min (n + 1) (hN + 1) = min n (hN + 1) := by omega
        rw [hmin1]
        simp [hn]

/-- The forward skip-0 two-hash probe reply at height `t`, truncated at the
remote head. -/
theorem reply_forward_two (cfg : SyncConfig) (t : Nat) :
    getBlockHashesReply cfg t 2 0 false
      = if t + 1 ≤ cfg.peerHead then [cfg.pc t, cfg.pc (t + 1)]
        else if t ≤ cfg.peerHead then [cfg.pc t] else [] := by
  unfold getBlockHashesReply
  have hr : List.range 2 = [0, 1] := by decide
  rw [hr]
  by_cases h1 : t + 1 ≤ cfg.peerHead
  · have h0 : t ≤ cfg.peerHead := by omega
    simp [h0, h1]
  · by_cases h0 : t ≤ cfg.peerHead
    · simp [h0, h1]
    · simp [h0, h1]

theorem luckyAt_spec (cfg : SyncConfig) (t : Nat) (h : luckyAt cfg t = true) :
    t + 1 ≤ cfg.peerHead ∧ HasBlock cfg (cfg.pc t) t = true
      ∧ HasBlock cfg (cfg.pc (t + 1)) (t + 1) = false := by
  unfold luckyAt at h
  rw [reply_forward_two] at h
  by_cases h1 : t + 1 ≤ cfg.peerHead
  · rw [if_pos h1] at h
    simp only [Bool.and_eq_true, Bool.not_eq_true'] at h
    exact ⟨h1, h.1, h.2⟩
  · rw [if_neg h1] at h
    by_cases h0 : t ≤ cfg.peerHead
    · rw [if_pos h0] at h
      simp at h
    · rw [if_neg h0] at h
      simp at h

theorem luckyAt_of_empty (cfg : SyncConfig) (t : Nat)
    (h : getBlockHashesReply cfg t 2 0 false = []) : luckyAt cfg t = false := by
  unfold luckyAt
  rw [h]

theorem searchProbe_stuck (cfg : SyncConfig) (sS : Nat) (st : ProbeState) (n : Nat)
    (h : st.err = true ∨ st.luck ≠ 0) : searchProbe cfg sS st n = (st, false) := by
  unfold searchProbe
  have hc : (st.err || st.luck != 0) = true := by
    rcases h with h | h
    · rw [h]; rfl
    · simp [h]
  rw [hc]
  rfl

/-- Case analysis of a probe from a clean state: the reply is empty (error
set), a lucky hit (luck set to the target), or a normal answer
`!hasBlock0`.  In every case the ghost log gains the target. -/
theorem searchProbe_cases (cfg : SyncConfig) (sS : Nat) (st : ProbeState) (n : Nat)
    (he : st.err = false) (hl : st.luck = 0) :
    (getBlockHashesReply cfg (n + sS) 2 0 false = [] ∧
      searchProbe cfg sS st n = ({ st with probes := (n + sS) :: st.probes, err := true }, false))
  ∨ (luckyAt cfg (n + sS) = true ∧
      searchProbe cfg sS st n
        = ({ st with probes := (n + sS) :: st.probes, luck := n + sS }, false))
  ∨ (getBlockHashesReply cfg (n + sS) 2 0 false ≠ [] ∧ luckyAt cfg (n + sS) = false ∧
      searchProbe cfg sS st n
        = ({ st with probes := (n + sS) :: st.probes },
           !(HasBlock cfg (cfg.pc (n + sS)) (n + sS)))) := by
  have hc : (st.err || st.luck != 0) = false := by rw [he, hl]; rfl
  have hrep := reply_forward_two cfg (n + sS)
  by_cases h1 : n + sS + 1 ≤ cfg.peerHead
  · rw [if_pos h1] at hrep
    by_cases hlucky : (HasBlock cfg (cfg.pc (n + sS)) (n + sS)
        && !(HasBlock cfg (cfg.pc (n + sS + 1)) (n + sS + 1))) = true
    · right; left
      constructor
      · unfold luckyAt
        rw [hrep]
        exact hlucky
      · unfold searchProbe
        rw [hc]
        simp only [Bool.false_eq_true, if_false, hrep]
        rw [if_pos hlucky]
    · right; right
      refine ⟨by rw [hrep]; simp, by unfold luckyAt; rw [hrep]; simpa using hlucky, ?_⟩
      unfold searchProbe
      rw [hc]
      simp only [Bool.false_eq_true, if_false, hrep]
      rw [if_neg hlucky]
  · rw [if_neg h1] at hrep
    by_cases h0 : n + sS ≤ cfg.peerHead
    · rw [if_pos h0] at hrep
      right; right
      refine ⟨by rw [hrep]; simp, by unfold luckyAt; rw [hrep], ?_⟩
      unfold searchProbe
      rw [hc]
      simp only [Bool.false_eq_true, if_false, hrep]
    · rw [if_neg h0] at hrep
      left
      refine ⟨hrep, ?_⟩
      unfold searchProbe
      rw [hc]
      simp only [Bool.false_eq_true, if_false, hrep]

theorem searchProbe_mono (cfg : SyncConfig) (sS : Nat) (st : ProbeState) (n : Nat)
    (st1 : ProbeState) (b : Bool) (hp : searchProbe cfg sS st n = (st1, b)) :
    (st1.err = false → st.err = false) ∧ (st1.luck = 0 → st.luck = 0) := by
  by_cases hstuck : st.err = true ∨ st.luck ≠ 0
  · rw [searchProbe_stuck cfg sS st n hstuck] at hp
    cases hp
    exact ⟨fun h => h, fun h => h⟩
  · push_neg at hstuck
    obtain ⟨h1, h2⟩ := hstuck
    rw [ne_eq, Bool.not_eq_true] at h1
    exact ⟨fun _ => h1, fun _ => h2⟩

theorem goSearch_self (f : ProbeState → Nat → ProbeState × Bool) (fuel : Nat)
    (st : ProbeState) (i j : Nat) (h : ¬ i < j) : goSearch f fuel st i j = (st, i) := by
  cases fuel with
  | zero => rfl
  | succ n => rw [goSearch, if_neg h]

theorem goSearch_stuck (cfg : SyncConfig) (sS : Nat) :
    ∀ (fuel : Nat) (st : ProbeState) (i j : Nat), st.err = true ∨ st.luck ≠ 0 →
    (goSearch (searchProbe cfg sS) fuel st i j).1 = st := by
  intro fuel
  induction fuel with
  | zero => intro st i j _; rfl
  | succ n ih =>
      intro st i j hstuck
      rw [goSearch]
      by_cases hij : i < j
      · rw [if_pos hij]
        simp only [searchProbe_stuck cfg sS st _ hstuck]
        exact ih st _ j hstuck
      · rw [if_neg hij]

theorem goSearch_mono (cfg : SyncConfig) (sS : Nat) :
    ∀ (fuel : Nat) (st : ProbeState) (i j : Nat) (st2 : ProbeState) (res : Nat),
    goSearch (searchProbe cfg sS) fuel st i j = (st2, res) →
    (st2.err = false → st.err = false) ∧ (st2.luck = 0 → st.luck = 0) := by
  intro fuel
  induction fuel with
  | zero =>
      intro st i j st2 res h
      cases h
      exact ⟨fun h => h, fun h => h⟩
  | succ n ih =>
      intro st i j st2 res h
      rw [goSearch] at h
      by_cases hij : i < j
      · rw [if_pos hij] at h
        rcases hp : searchProbe cfg sS st ((i + j) / 2) with ⟨st1, b⟩
        simp only [hp] at h
        have hpm := searchProbe_mono cfg sS st _ st1 b hp
        split at h
        · have := ih st1 i _ st2 res h
          exact ⟨fun h2 => hpm.1 (this.1 h2), fun h2 => hpm.2 (this.2 h2)⟩
        · have := ih st1 _ j st2 res h
          exact ⟨fun h2 => hpm.1 (this.1 h2), fun h2 => hpm.2 (this.2 h2)⟩
      · rw [if_neg hij] at h
        cases h
        exact ⟨fun h => h, fun h => h⟩

/-- A probe from a clean state that does not set the error answers exactly
`!HasBlock(pc(target), target)` — also on a lucky hit, where `hasBlock0`
is true and the answer is `false`. -/
theorem searchProbe_clean_val (cfg : SyncConfig) (sS : Nat) (st : ProbeState) (n : Nat)
    (st1 : ProbeState) (b : Bool) (hp : searchProbe cfg sS st n = (st1, b))
    (he : st.err = false) (hl : st.luck = 0) (he1 : st1.err = false) :
    b = !(HasBlock cfg (cfg.pc (n + sS)) (n + sS)) := by
  rcases searchProbe_cases cfg sS st n he hl with ⟨hrep, heq⟩ | ⟨hlucky, heq⟩ | ⟨_, _, heq⟩
  · rw [heq] at hp
    cases hp
    simp at he1
  · rw [heq] at hp
    cases hp
    rw [(luckyAt_spec cfg (n + sS) hlucky).2.1]
    rfl
  · rw [heq] at hp
    cases hp
    rfl

/-- Binary-search result characterization over a clean (no error, no lucky
hit) run: the result lies in `[i, j]`, the local chain has the remote
block just below the result (when the result moved), and lacks the remote
block at the result (when the result is below the window's top). -/
theorem goSearch_clean_spec (cfg : SyncConfig) (sS : Nat) :
    ∀ (fuel i j : Nat) (st st2 : ProbeState) (res : Nat),
    j - i ≤ fuel → i ≤ j →
    goSearch (searchProbe cfg sS) fuel st i j = (st2, res) →
    st.err = false → st.luck = 0 → st2.err = false → st2.luck = 0 →
    (i ≤ res ∧ res ≤ j
      ∧ (i < res → HasBlock cfg (cfg.pc (res - 1 + sS)) (res - 1 + sS) = true)
      ∧ (res < j → HasBlock cfg (cfg.pc (res + sS)) (res + sS) = false)) := by
  intro fuel
  induction fuel with
  | zero =>
      intro i j st st2 res hfuel hij h he hl he2 hl2
      cases h
      refine ⟨Nat.le_refl _, hij, ?_, ?_⟩
      · intro hlt; exact absurd hlt (Nat.lt_irrefl _)
      · intro hlt; exfalso; omega
  | succ fn ih =>
      intro i j st st2 res hfuel hij h he hl he2 hl2
      rw [goSearch] at h
      by_cases hij2 : i < j
      · rw [if_pos hij2] at h
        have hm : i ≤ (i + j) / 2 ∧ (i + j) / 2 < j := by omega
        rcases hp : searchProbe cfg sS st ((i + j) / 2) with ⟨st1, b⟩
        simp only [hp] at h
        split at h
        · rename_i hb
          have hmono := goSearch_mono cfg sS fn st1 i _ st2 res h
          have he1 : st1.err = false := hmono.1 he2
          have hl1 : st1.luck = 0 := hmono.2 hl2
          have hval := searchProbe_clean_val cfg sS st _ st1 b hp he hl he1
          rw [hb] at hval
          have hhb : HasBlock cfg (cfg.pc ((i + j) / 2 + sS)) ((i + j) / 2 + sS) = false := by
            cases hhh : HasBlock cfg (cfg.pc ((i + j) / 2 + sS)) ((i + j) / 2 + sS)
            · rfl
            · rw [hhh] at hval; simp at hval
          obtain ⟨hr1, hr2, hr3, hr4⟩ :=
            ih i _ st1 st2 res (by omega) (by omega) h he1 hl1 he2 hl2
          refine ⟨hr1, by omega, hr3, ?_⟩
          intro hlt
          by_cases hr5 : res < (i + j) / 2
          · exact hr4 hr5
          · have heqr : res = (i + j) / 2 := by omega
            rw [heqr]
            exact hhb
        · rename_i hb
          rw [Bool.not_eq_true] at hb
          have hmono := goSearch_mono cfg sS fn st1 _ j st2 res h
          have he1 : st1.err = false := hmono.1 he2
          have hl1 : st1.luck = 0 := hmono.2 hl2
          have hval := searchProbe_clean_val cfg sS st _ st1 b hp he hl he1
          rw [hb] at hval
          have hhb : HasBlock cfg (cfg.pc ((i + j) / 2 + sS)) ((i + j) / 2 + sS) = true := by
            cases hhh : HasBlock cfg (cfg.pc ((i + j) / 2 + sS)) ((i + j) / 2 + sS)
            · rw [hhh] at hval; simp at hval
            · rfl
          obtain ⟨hr1, hr2, hr3, hr4⟩ :=
            ih _ j st1 st2 res (by omega) (by omega) h he1 hl1 he2 hl2
          refine ⟨by omega, hr2, ?_, hr4⟩
          intro hlt
          by_cases hr5 : (i + j) / 2 + 1 < res
          · exact hr3 hr5
          · have heqr : res - 1 + sS = (i + j) / 2 + sS := by omega
            rw [heqr]
            exact hhb
      · rw [if_neg hij2] at h
        cases h
        refine ⟨Nat.le_refl _, hij, ?_, ?_⟩
        · intro hlt; exact absurd hlt (Nat.lt_irrefl _)
        · intro hlt; exfalso; omega

/-- If a search from a clean state ends with `luckResult` set, the lucky
condition really held at that height and no error was recorded. -/
theorem goSearch_luck (cfg : SyncConfig) (sS : Nat) :
    ∀ (fuel : Nat) (st : ProbeState) (i j : Nat) (st2 : ProbeState) (res : Nat),
    goSearch (searchProbe cfg sS) fuel st i j = (st2, res) →
    st.err = false → st.luck = 0 → st2.luck ≠ 0 →
    luckyAt cfg st2.luck = true ∧ st2.err = false := by
  intro fuel
  induction fuel with
  | zero =>
      intro st i j st2 res h he hl hl2
      cases h
      exact absurd hl hl2
  | succ fn ih =>
      intro st i j st2 res h he hl hl2
      rw [goSearch] at h
      by_cases hij : i < j
      · rw [if_pos hij] at h
        rcases hp : searchProbe cfg sS st ((i + j) / 2) with ⟨st1, b⟩
        simp only [hp] at h
        rcases searchProbe_cases cfg sS st ((i + j) / 2) he hl with
          ⟨hrep, heq⟩ | ⟨hlucky, heq⟩ | ⟨hne, hnl, heq⟩ <;>
          rw [hp] at heq <;> injection heq with hst1 hb
        · rw [hb] at h
          simp only [Bool.false_eq_true, if_false] at h
          have hstuck := goSearch_stuck cfg sS fn st1 ((i + j) / 2 + 1) j
            (Or.inl (by rw [hst1]))
          rw [h] at hstuck
          have hst2 : st2 = st1 := hstuck
          rw [hst2, hst1] at hl2
          exact absurd hl hl2
        · rw [hb] at h
          simp only [Bool.false_eq_true, if_false] at h
          by_cases htm : (i + j) / 2 + sS = 0
          · exact ih st1 _ j st2 res h (by rw [hst1]; exact he)
              (by rw [hst1]; exact htm) hl2
          · have hstuck := goSearch_stuck cfg sS fn st1 ((i + j) / 2 + 1) j
              (Or.inr (by rw [hst1]; exact htm))
            rw [h] at hstuck
            have hst2 : st2 = st1 := hstuck
            rw [hst2, hst1]
            exact ⟨hlucky, he⟩
        · rw [hb] at h
          split at h
          · exact ih st1 i _ st2 res h (by rw [hst1]; exact he)
              (by rw [hst1]; exact hl) hl2
          · exact ih st1 _ j st2 res h (by rw [hst1]; exact he)
              (by rw [hst1]; exact hl) hl2
      · rw [if_neg hij] at h
        cases h
        exact absurd hl hl2

/-- C8 core: if a clean search's ghost log contains a height at which the
lucky condition holds, the probe at that height was the last probe made
(it heads the log), and either `luckResult` was set to it, or the height
is 0 (the source's `uint64` zero value cannot mark a lucky hit) in which
case it was necessarily the final probe of the whole search, whose result
is then 1 with `searchStart = 0`. -/
theorem goSearch_lucky_probe (cfg : SyncConfig) (sS : Nat) :
    ∀ (fuel : Nat) (st : ProbeState) (i j : Nat) (st2 : ProbeState) (res : Nat),
    goSearch (searchProbe cfg sS) fuel st i j = (st2, res) →
    st.err = false → st.luck = 0 →
    ∀ t, t ∈ st2.probes → t ∉ st.probes → luckyAt cfg t = true →
    (st2.luck = t ∧ t ≠ 0 ∧ st2.err = false ∧ st2.probes.head? = some t)
    ∨ (t = 0 ∧ sS = 0 ∧ res = 1 ∧ st2.luck = 0 ∧ st2.err = false
        ∧ st2.probes.head? = some 0) := by
  intro fuel
  induction fuel with
  | zero =>
      intro st i j st2 res h he hl t ht2 ht1 hlt
      cases h
      exact absurd ht2 ht1
  | succ fn ih =>
      intro st i j st2 res h he hl t ht2 ht1 hlt
      rw [goSearch] at h
      by_cases hij : i < j
      · rw [if_pos hij] at h
        rcases hp : searchProbe cfg sS st ((i + j) / 2) with ⟨st1, b⟩
        simp only [hp] at h
        rcases searchProbe_cases cfg sS st ((i + j) / 2) he hl with
          ⟨hrep, heq⟩ | ⟨hlucky, heq⟩ | ⟨hne, hnl, heq⟩ <;>
          rw [hp] at heq <;> injection heq with hst1 hb
        · rw [hb] at h
          simp only [Bool.false_eq_true, if_false] at h
          have hstuck := goSearch_stuck cfg sS fn st1 ((i + j) / 2 + 1) j
            (Or.inl (by rw [hst1]))
          rw [h] at hstuck
          have hst2 : st2 = st1 := hstuck
          rw [hst2, hst1] at ht2
          have ht2' : t ∈ ((i + j) / 2 + sS) :: st.probes := ht2
          rcases List.mem_cons.mp ht2' with rfl | hmem
          · rw [luckyAt_of_empty cfg _ hrep] at hlt
            exact absurd hlt (by simp)
          · exact absurd hmem ht1
        · rw [hb] at h
          simp only [Bool.false_eq_true, if_false] at h
          by_cases htm : (i + j) / 2 + sS = 0
          · have hj1 : ¬ ((i + j) / 2 + 1 < j) := by omega
            rw [goSearch_self _ fn _ _ _ hj1] at h
            rw [Prod.mk.injEq] at h
            obtain ⟨hst2, hres⟩ := h
            rw [← hst2, hst1] at ht2
            have ht2' : t ∈ ((i + j) / 2 + sS) :: st.probes := ht2
            rcases List.mem_cons.mp ht2' with htt | hmem
            · right
              rw [← hst2, hst1]
              refine ⟨by omega, by omega, by omega, htm, he, ?_⟩
              show some ((i + j) / 2 + sS) = some 0
              rw [htm]
            · exact absurd hmem ht1
          · have hstuck := goSearch_stuck cfg sS fn st1 ((i + j) / 2 + 1) j
              (Or.inr (by rw [hst1]; exact htm))
            rw [h] at hstuck
            have hst2 : st2 = st1 := hstuck
            rw [hst2, hst1] at ht2
            have ht2' : t ∈ ((i + j) / 2 + sS) :: st.probes := ht2
            rcases List.mem_cons.mp ht2' with htt | hmem
            · left
              rw [hst2, hst1, htt]
              exact ⟨rfl, htm, he, rfl⟩
            · exact absurd hmem ht1
        · rw [hb] at h
          by_cases htt : t = (i + j) / 2 + sS
          · rw [htt] at hlt
            rw [hlt] at hnl
            exact absurd hnl (by simp)
          · have ht1' : t ∉ st1.probes := by
              rw [hst1]
              intro hmem
              rcases List.mem_cons.mp hmem with h1 | h1
              · exact htt h1
              · exact ht1 h1
            split at h
            · exact ih st1 i _ st2 res h (by rw [hst1]; exact he)
                (by rw [hst1]; exact hl) t ht2 ht1' hlt
            · exact ih st1 _ j st2 res h (by rw [hst1]; exact he)
                (by rw [hst1]; exact hl) t ht2 ht1' hlt
      · rw [if_neg hij] at h
        cases h
        exact absurd ht2 ht1

/-- A successful phase-1 scan stops at the first matching height: the
match itself is in the local chain, and unless it is the very first entry
(`hN - i0`), the entry just above it was checked and missed. -/
theorem phase1Scan_some (cfg : SyncConfig) (hN : Nat) :
    ∀ (l : List Nat) (i0 a : Nat),
    (∀ k h, l.get? k = some h → h = cfg.pc (hN - (i0 + k))) →
    phase1Scan cfg hN l i0 = some a →
    HasBlock cfg (cfg.pc a) a = true
      ∧ (a = hN - i0 ∨ HasBlock cfg (cfg.pc (a + 1)) (a + 1) = false) := by
  intro l
  induction l with
  | nil =>
      intro i0 a _ h
      exact absurd h (by simp [phase1Scan])
  | cons hd tl ih =>
      intro i0 a hget h
      rw [phase1Scan] at h
      have hhd : hd = cfg.pc (hN - i0) := by
        have := hget 0 hd rfl
        simpa using this
      split at h
      · rename_i hhas
        injection h with ha
        subst ha
        rw [hhd] at hhas
        exact ⟨hhas, Or.inl rfl⟩
      · rename_i hhas
        rw [Bool.not_eq_true] at hhas
        have hget2 : ∀ k h, tl.get? k = some h → h = cfg.pc (hN - (i0 + 1 + k)) := by
          intro k hh hk
          have := hget (k + 1) hh (by simpa using hk)
          rw [this]
          congr 1
          omega
        obtain ⟨h1, h2⟩ := ih (i0 + 1) a hget2 h
        refine ⟨h1, ?_⟩
        rcases h2 with h2 | h2
        · by_cases hio : i0 < hN
          · right
            rw [show a + 1 = hN - i0 from by omega, ← hhd]
            exact hhas
          · left
            omega
        · exact Or.inr h2

/-- A failed phase-1 scan misses every probed height. -/
theorem phase1Scan_none (cfg : SyncConfig) (hN : Nat) :
    ∀ (l : List Nat) (i0 : Nat), phase1Scan cfg hN l i0 = none →
    ∀ k h, l.get? k = some h → HasBlock cfg h (hN - (i0 + k)) = false := by
  intro l
  induction l with
  | nil =>
      intro i0 _ k h hk
      simp at hk
  | cons hd tl ih =>
      intro i0 hnone k h hk
      rw [phase1Scan] at hnone
      split at hnone
      · exact absurd hnone (by simp)
      · rename_i hhas
        rw [Bool.not_eq_true] at hhas
        cases k with
        | zero =>
            have hh : hd = h := by simpa using hk
            rw [← hh]
            simpa using hhas
        | succ n =>
            have := ih (i0 + 1) hnone n h (by simpa using hk)
            rw [show hN - (i0 + (n + 1)) = hN - (i0 + 1 + n) from by omega]
            exact this

/-- Invariant-carrying correctness of the binary-search loop: any `ok a`
it returns is either a true fork boundary (local chain has the remote
block at `a` and lacks it at `a+1`) or the genesis fallback `a = 0`. -/
theorem ancestorLoop_ok (cfg : SyncConfig) :
    ∀ (fuel hN sS a : Nat),
    (hN = 0 ∨ (hN < cfg.peerHead ∧ sS ≤ hN + 1
        ∧ HasBlock cfg (cfg.pc (hN + 1)) (hN + 1) = false)) →
    ancestorLoop cfg fuel hN sS = some (Except.ok a) →
    (HasBlock cfg (cfg.pc a) a = true ∧ HasBlock cfg (cfg.pc (a + 1)) (a + 1) = false)
      ∨ a = 0 := by
  intro fuel
  induction fuel with
  | zero =>
      intro hN sS a _ h
      exact absurd h (by simp [ancestorLoop])
  | succ fn ih =>
      intro hN sS a hcond h
      rw [ancestorLoop] at h
      by_cases hz : hN = 0
      · rw [if_pos hz] at h
        injection h with h1
        injection h1 with h2
        exact Or.inr h2.symm
      · rw [if_neg hz] at h
        rcases hcond with hcond | ⟨hph, hss, hinv⟩
        · exact absurd hcond hz
        rcases hgs : goSearch (searchProbe cfg sS) (hN + 1 - sS) ⟨false, 0, []⟩ 0 (hN + 1 - sS)
          with ⟨st2, res⟩
        simp only [hgs] at h
        by_cases herr : st2.err = true
        · rw [if_pos herr] at h
          exact absurd h (by simp)
        · rw [if_neg herr] at h
          rw [Bool.not_eq_true] at herr
          by_cases hluck : st2.luck = 0
          · have hbne : (st2.luck != 0) = false := by simp [hluck]
            rw [hbne] at h
            simp only [Bool.false_eq_true, if_false] at h
            by_cases hres : res > 0
            · rw [if_pos hres] at h
              injection h with h1
              injection h1 with h2
              obtain ⟨hb1, hb2, hb3, hb4⟩ := goSearch_clean_spec cfg sS (hN + 1 - sS) 0
                (hN + 1 - sS) ⟨false, 0, []⟩ st2 res (by omega) (by omega) hgs rfl rfl
                herr hluck
              left
              constructor
              · rw [← h2, show res + sS - 1 = res - 1 + sS from by omega]
                exact hb3 hres
              · by_cases hrtop : res < hN + 1 - sS
                · rw [← h2, show res + sS - 1 + 1 = res + sS from by omega]
                  exact hb4 hrtop
                · rw [show a = hN from by omega]
                  exact hinv
            · rw [if_neg hres] at h
              by_cases hs0 : sS = 0
              · rw [if_pos hs0] at h
                exact absurd h (by simp)
              · rw [if_neg hs0] at h
                refine ih (sS - 1) (sS / 2) a ?_ h
                by_cases hs1 : sS - 1 = 0
                · exact Or.inl hs1
                · right
                  refine ⟨by omega, by omega, ?_⟩
                  by_cases hlen : 0 < hN + 1 - sS
                  · obtain ⟨hb1, hb2, hb3, hb4⟩ := goSearch_clean_spec cfg sS (hN + 1 - sS) 0
                      (hN + 1 - sS) ⟨false, 0, []⟩ st2 res (by omega) (by omega) hgs rfl rfl
                      herr hluck
                    have hzero := hb4 (by omega)
                    rw [show res = 0 from by omega] at hzero
                    rw [show sS - 1 + 1 = sS from by omega]
                    simpa using hzero
                  · rw [show sS - 1 + 1 = hN + 1 from by omega]
                    exact hinv
          · have hbne : (st2.luck != 0) = true := by simp [hluck]
            rw [if_pos hbne] at h
            injection h with h1
            injection h1 with h2
            obtain ⟨hlat, _⟩ := goSearch_luck cfg sS (hN + 1 - sS) ⟨false, 0, []⟩ 0
              (hN + 1 - sS) st2 res hgs rfl rfl hluck
            obtain ⟨hph2, hhas, hnot⟩ := luckyAt_spec cfg st2.luck hlat
            rw [← h2]
            exact Or.inl ⟨hhas, hnot⟩

/-- C1: any height `a` an ancestor search returns (`findAncestor` run from
`headNumber = min(localHead, peerHead)` with a lower bound
`1 ≤ searchStart ≤ headNumber + 1`, against a fixed honest remote chain)
satisfies: the local chain has the remote chain's block at `a` and — when
`a` is strictly below the remote head — lacks the remote chain's block at
`a + 1`; or `a = 0`, the genesis fallback returned when the search window
is exhausted without a match. -/
theorem findAncestor_ok (cfg : SyncConfig) (fuel hN sS a : Nat)
    (hhn : hN = min cfg.localHead cfg.peerHead)
    (hss1 : 1 ≤ sS) (hss2 : sS ≤ hN + 1)
    (hfa : findAncestor cfg fuel hN sS = some (Except.ok a)) :
    (HasBlock cfg (cfg.pc a) a = true
      ∧ (a < cfg.peerHead → HasBlock cfg (cfg.pc (a + 1)) (a + 1) = false))
    ∨ a = 0 := by
  rw [findAncestor] at hfa
  by_cases hz : hN < 1
  · rw [if_pos hz] at hfa
    injection hfa with h1
    injection h1 with h2
    exact Or.inr h2.symm
  · rw [if_neg hz] at hfa
    have hNle : hN ≤ cfg.peerHead := by omega
    have hrep := reply_reverse_skip0 cfg hN (min (hN + 2 - sS) 32)
    simp only [hrep, List.length_map, List.length_range] at hfa
    set len1 := min (min (hN + 2 - sS) 32) (hN + 1) with hlen1def
    have hget : ∀ k h,
        ((List.range len1).map (fun i => cfg.pc (hN - i))).get? k = some h →
        h = cfg.pc (hN - (0 + k)) := by
      intro k h hk
      rw [List.get?_map] at hk
      by_cases hkl : k < len1
      · rw [List.get?_range hkl] at hk
        have : cfg.pc (hN - k) = h := by simpa using hk
        rw [← this, Nat.zero_add]
      · rw [List.get?_eq_none.mpr (by simpa using Nat.le_of_not_lt hkl)] at hk
        simp at hk
    cases hscan : phase1Scan cfg hN
        ((List.range len1).map (fun i => cfg.pc (hN - i))) 0 with
    | some av =>
        rw [hscan] at hfa
        injection hfa with h1
        injection h1 with h2
        obtain ⟨hA, hB⟩ := phase1Scan_some cfg hN _ 0 av hget hscan
        rw [← h2]
        left
        refine ⟨hA, ?_⟩
        rcases hB with hB | hB
        · intro hlt
          apply HasBlock_above_head
          omega
        · exact fun _ => hB
    | none =>
        rw [hscan] at hfa
        have hlen1ge : 1 ≤ len1 := by omega
        refine (ancestorLoop_ok cfg fuel _ _ a ?_ hfa).imp
          (fun hx => ⟨hx.1, fun _ => hx.2⟩) id
        by_cases hz2 : hN - len1 = 0
        · exact Or.inl hz2
        · right
          refine ⟨by omega, by omega, ?_⟩
          have hentry : ((List.range len1).map (fun i => cfg.pc (hN - i))).get? (len1 - 1)
              = some (cfg.pc (hN - (len1 - 1))) := by
            rw [List.get?_map, List.get?_range (by omega)]
            rfl
          have hnone := phase1Scan_none cfg hN _ 0 hscan (len1 - 1)
            (cfg.pc (hN - (len1 - 1))) hentry
          rw [show hN - (0 + (len1 - 1)) = hN - len1 + 1 from by omega] at hnone
          rw [show hN - (len1 - 1) = hN - len1 + 1 from by omega] at hnone
          exact hnone

/-- Concrete configuration for the C1 witness: chains share heights 0-2,
the remote chain extends to height 4. -/
def cfgShared : SyncConfig :=
  { lc := fun n => n, localHead := 2,
    pc := fun n => if n ≤ 2 then n else n + 50, peerHead := 4 }

/-- Closed witness for C1: a full run of `findAncestor` on `cfgShared`
returns 2, which is a true fork boundary. -/
theorem findAncestor_ok_witness :
    (HasBlock cfgShared (cfgShared.pc 2) 2 = true
      ∧ (2 < cfgShared.peerHead → HasBlock cfgShared (cfgShared.pc 3) 3 = false))
    ∨ (2 : Nat) = 0 :=
  findAncestor_ok cfgShared 5 2 1 2 (by decide) (by decide) (by decide) (by rfl)

/-- C8: if, during one iteration of the binary-search loop over
`[searchStart, headNumber]`, the probe log of the `sort.Search` run
contains a height `t` at which the lucky condition held (the 2-hash reply
`[h_t, h_{t+1}]` with `HasBlock h_t t ∧ ¬HasBlock h_{t+1} (t+1)`), then
that iteration of `findAncestor`'s loop returns exactly `t`, and `t` heads
the probe log — the lucky probe was the last probe performed. -/
theorem ancestorLoop_lucky_hit (cfg : SyncConfig) (fuel hN sS t : Nat)
    (st2 : ProbeState) (res : Nat)
    (hrun : goSearch (searchProbe cfg sS) (hN + 1 - sS) ⟨false, 0, []⟩ 0 (hN + 1 - sS)
      = (st2, res))
    (hhn : hN ≠ 0) (hmem : t ∈ st2.probes) (hlucky : luckyAt cfg t = true) :
    ancestorLoop cfg (fuel + 1) hN sS = some (Except.ok t)
      ∧ st2.probes.head? = some t := by
  have hmain := goSearch_lucky_probe cfg sS (hN + 1 - sS) ⟨false, 0, []⟩ 0 (hN + 1 - sS)
    st2 res hrun rfl rfl t hmem (by simp) hlucky
  rw [ancestorLoop, if_neg hhn]
  simp only [hrun]
  rcases hmain with ⟨hl, hne, herr, hhead⟩ | ⟨ht0, hs0, hres, hl, herr, hhead⟩
  · refine ⟨?_, hhead⟩
    rw [if_neg (by simp [herr]), if_pos (by simp [hl, hne]), hl]
  · refine ⟨?_, ht0 ▸ hhead⟩
    rw [if_neg (by simp [herr]), if_neg (by simp [hl]),
      if_pos (by omega : res > 0), hres, hs0, ht0]

/-- Concrete configuration for the C8 witness: chains share heights 0-1,
the remote chain extends to height 2 with a different block there. -/
def cfgLucky : SyncConfig :=
  { lc := fun n => n, localHead := 1,
    pc := fun n => if n ≤ 1 then n else 99, peerHead := 2 }

/-- Closed witness for C8: on `cfgLucky` the probe at height 1 is lucky;
the loop iteration returns 1 and 1 heads the probe log. -/
theorem ancestorLoop_lucky_hit_witness :
    ancestorLoop cfgLucky 4 1 1 = some (Except.ok 1)
      ∧ (ProbeState.mk false 1 [1]).probes.head? = some 1 :=
  ancestorLoop_lucky_hit cfgLucky 3 1 1 1 ⟨false, 1, [1]⟩ 1 (by rfl) (by decide)
    (by decide) (by decide)

/-! ## Download tasks (`downloadTask.Do`, lines 549-625)

Headers carry the fields the sync core reads (parent hash, number) plus an
opaque rest; `Header.Hash()` is an external function passed in as
`hashFn`. The three peer replies are inputs (`none` models a request
error), so the theorems quantify over arbitrary, possibly malicious,
replies. -/

/-- `types.Header`: parent hash and number, with the other fields opaque. -/
structure Header where
  parentHash : Nat
  number : Nat
  extra : Nat
  deriving Repr, DecidableEq

/-- `types.Body`: the transactions. -/
structure Body where
  transactions : List Nat
  deriving Repr, DecidableEq

/-- A full block as assembled at lines 613-622: header plus transactions. -/
structure Block where
  header : Header
  transactions : List Nat
  deriving Repr, DecidableEq

/-- `common.Hash{}`, the zero value `emptyHash`. -/
def emptyHash : Nat := 0

/-- The fields of a `downloadTask` that `Do` reads, with the assigned
worker's last-known height. -/
structure DownloadTaskData where
  startNumber : Nat
  startHash : Nat
  endNumber : Nat
  endHash : Nat
  workerCurrentNumber : Nat
  deriving Repr, DecidableEq

/-- The replies of the assigned peer to the task's three requests; `none`
models a request error (timeout or disconnect). -/
structure TaskReplies where
  hashes : Option (List Nat)
  headers : Option (List Header)
  bodies : Option (List Body)
  deriving Repr, DecidableEq

/-- The header-chain check of lines 593-598: every adjacent pair satisfies
`headers[i].parent == hash(headers[i-1])` and
`headers[i].number == headers[i-1].number + 1`. -/
def headersLinked (hashFn : Header → Nat) : List Header → Bool
  | [] => true
  | [_] => true
  | h1 :: h2 :: rest =>
      (h2.parentHash == hashFn h1 && h2.number == h1.number + 1)
        && headersLinked hashFn (h2 :: rest)

/-- The boundary check of lines 587-592: the first and last headers carry
the expected boundary numbers and hashes. -/
def boundaryOK (hashFn : Header → Nat) (task : DownloadTaskData)
    (headers : List Header) : Bool :=
  match headers.head?, headers.getLast? with
  | some h0, some h1 =>
      h0.number == task.startNumber && hashFn h0 == task.startHash
        && h1.number == task.endNumber && hashFn h1 == task.endHash
  | _, _ => false

/-- Block assembly of lines 613-622: a header whose hash is `emptyHash`
becomes a body-less block, any other header consumes the next body.  Under
the preceding length check the bodies never run out; the `headD` default
covers the branch the source would reach only by an out-of-range index. -/
def assembleBlocks (hashFn : Header → Nat) : List Header → List Body → List Block
  | [], _ => []
  | h :: hs, bodies =>
    if hashFn h == emptyHash then
      { header := h, transactions := [] } :: assembleBlocks hashFn hs bodies
    else
      { header := h, transactions := (bodies.headD ⟨[]⟩).transactions }
        :: assembleBlocks hashFn hs bodies.tail

/-- Lines 562-566: one hash is requested (and expected) when the task is a
single block, two otherwise. -/
def taskAmount (task : DownloadTaskData) : Nat :=
  if task.endNumber == task.startNumber then 1 else 2

/-- The request hashes of lines 600-605: hashes of the headers whose hash
is not `emptyHash`. -/
def reqHashesOf (hashFn : Header → Nat) (headers : List Header) : List Nat :=
  (headers.filter (fun h => hashFn h != emptyHash)).map hashFn

/-- `downloadTask.Do` (lines 549-625) as a function of the peer's replies;
the returned list is `task.blocks`, where `[]` means the task failed.  The
source's separate header length, boundary and linkage checks (each an
early `return`) are conjoined; the outcome is identical. -/
def taskDo (hashFn : Header → Nat) (task : DownloadTaskData) (r : TaskReplies) :
    List Block :=
  if task.workerCurrentNumber < task.endNumber then []
  else
    match r.hashes with
    | none => []
    | some hashes =>
      if hashes.length == taskAmount task && hashes.head? == some task.startHash
          && hashes.getLast? == some task.endHash then
        match r.headers with
        | none => []
        | some headers =>
          if (headers.length == task.endNumber - task.startNumber + 1)
              && boundaryOK hashFn task headers
              && headersLinked hashFn headers then
            match r.bodies with
            | none => []
            | some bodies =>
              if bodies.length == (reqHashesOf hashFn headers).length then
                assembleBlocks hashFn headers bodies
              else []
          else []
      else []

theorem assembleBlocks_headers (hashFn : Header → Nat) :
    ∀ (hs : List Header) (bs : List Body),
    (assembleBlocks hashFn hs bs).map Block.header = hs := by
  intro hs
  induction hs with
  | nil => intro bs; rfl
  | cons h t ih =>
      intro bs
      rw [assembleBlocks]
      split <;> simp [ih]

/-- C2: every non-empty block sequence a download task delivers is
hash-linked — each block's parent hash is the hash of the previous block
and the numbers ascend by one — and its first and last blocks carry the
task's expected boundary numbers and hashes.  This holds for arbitrary
peer replies: any reply violating a check yields `[]` instead. -/
theorem taskDo_hash_linked (hashFn : Header → Nat) (task : DownloadTaskData)
    (r : TaskReplies) (blocks : List Block)
    (heq : taskDo hashFn task r = blocks) (hne : blocks ≠ []) :
    headersLinked hashFn (blocks.map Block.header) = true
    ∧ boundaryOK hashFn task (blocks.map Block.header) = true := by
  rw [taskDo] at heq
  repeat' split at heq
  all_goals try exact absurd heq.symm hne
  rename_i hchk hx hbodies hbeq hblen
  rw [← heq, assembleBlocks_headers]
  simp only [Bool.and_eq_true] at hchk
  exact ⟨hchk.2, hchk.1.2⟩

/-- Concrete data for the C2 witness: a hash function, a 2-block task and
honest replies. -/
def exHashFn : Header → Nat := fun h => h.number + 100

/-- Task `[1, 2]` with boundary hashes `101`, `102`, worker height 5. -/
def exTask : DownloadTaskData := ⟨1, 101, 2, 102, 5⟩

/-- Honest replies for `exTask` under `exHashFn`. -/
def exReplies : TaskReplies :=
  ⟨some [101, 102], some [⟨100, 1, 0⟩, ⟨101, 2, 0⟩], some [⟨[]⟩, ⟨[]⟩]⟩

/-- Closed witness for C2: the concrete task run delivers two blocks that
pass the linkage and boundary predicates. -/
theorem taskDo_hash_linked_witness :
    headersLinked exHashFn ((taskDo exHashFn exTask exReplies).map Block.header) = true
    ∧ boundaryOK exHashFn exTask
        ((taskDo exHashFn exTask exReplies).map Block.header) = true :=
  taskDo_hash_linked exHashFn exTask exReplies _ rfl (by decide)

/-! ## Worker pool and task pairing (`assignDownloadTask`, lines 460-491) -/

/-- The dispatcher-relevant part of a `stationStatus`: the peer's
last-advertised total difficulty and height. -/
structure WorkerStatus where
  td : Nat
  currentNumber : Nat
  deriving Repr, DecidableEq

/-- Lines 462-467: the worker pool is built by pushing every registered
remote — there is no total-difficulty filter.  Stacks are lists with the
top at the head; the argument lists the remotes in push order reversed
(head = pushed last = popped first). -/
def buildWorkerPool (remotes : List WorkerStatus) : List WorkerStatus := remotes

/-- `getReadyTask` (lines 479-491): pop a worker, then a task; if there is
no task the worker is pushed back (pools unchanged, `none`). -/
def getReadyTask {α : Type} (workers : List WorkerStatus) (tasks : List α) :
    Option (WorkerStatus × α × List WorkerStatus × List α) :=
  match workers with
  | [] => none
  | w :: ws =>
    match tasks with
    | [] => none
    | t :: ts => some (w, t, ws, ts)

/-- Low-difficulty, high-height peer and best peer for the C5
counterexample; the local head's total difficulty is 5. -/
def peerW : WorkerStatus := ⟨1, 100⟩

/-- The best peer (td 10) that triggered the round. -/
def peerB : WorkerStatus := ⟨10, 100⟩

/-- C5 (counterexample): with peers `peerB` (td 10) and `peerW` (td 1 ≤
local td 5) registered, the dispatcher's worker pool contains `peerW`;
when the map iteration pushes `peerW` last, the first task is paired with
`peerW`, and with `peerW`'s advertised height 100 the task executes and
returns a non-empty block sequence — so a peer whose td is at most the
local td is dispatched a download task. -/
theorem lowTd_peer_gets_task :
    peerW.td ≤ 5
    ∧ (getReadyTask (buildWorkerPool [peerW, peerB]) [exTask]).map Prod.fst = some peerW
    ∧ taskDo exHashFn exTask exReplies ≠ [] := by decide

/-- C5 (amended): the per-worker guard is the height check, not a
difficulty check: a task whose assigned worker's last-known height is
below the task's `endNumber` immediately fails with an empty result. -/
theorem taskDo_low_height_fails (hashFn : Header → Nat) (task : DownloadTaskData)
    (r : TaskReplies) (h : task.workerCurrentNumber < task.endNumber) :
    taskDo hashFn task r = [] := by
  rw [taskDo, if_pos h]

/-- Closed witness for the amended C5 at a worker of height 1. -/
theorem taskDo_low_height_fails_witness :
    (DownloadTaskData.mk 1 101 2 102 1).workerCurrentNumber
        < (DownloadTaskData.mk 1 101 2 102 1).endNumber
    ∧ taskDo exHashFn ⟨1, 101, 2, 102, 1⟩ exReplies = [] :=
  ⟨by decide, taskDo_low_height_fails exHashFn ⟨1, 101, 2, 102, 1⟩ exReplies (by decide)⟩

/-! ## Result collection and retry policy (`assignDownloadTask`, lines 505-520) -/

/-- A task as the dispatcher's queues hold it: sub-range boundaries plus
the accumulated failure count. -/
structure DispatchTask where
  startNumber : Nat
  startHash : Nat
  endNumber : Nat
  endHash : Nat
  errorTotal : Nat
  deriving Repr, DecidableEq

/-- The dispatcher's state during the collection loop: the task queue
(`taskes`, top at head), the worker pool, the in-flight count and the
per-start insert map. -/
structure DispatchState where
  taskQueue : List DispatchTask
  workers : List WorkerStatus
  taskCount : Nat
  insertList : Nat → Option (List Block)

/-- What arrives on the result channel: a finished task, its blocks and
its worker. -/
structure Arrival where
  task : DispatchTask
  blocks : List Block
  worker : WorkerStatus

/-- The deferred `task.errorTotal++` of `Do` (lines 550-553): every result
arrives with the failure count already incremented. -/
def doFinish (t : DispatchTask) (blocks : List Block) (w : WorkerStatus) : Arrival :=
  ⟨{ t with errorTotal := t.errorTotal + 1 }, blocks, w⟩

/-- One iteration of the collection loop (lines 508-519): an empty result
pushes the task back, or clears the whole queue once its failure count
exceeds 5; a non-empty result returns the worker and records the blocks
under the task's start number. -/
def collectStep (st : DispatchState) (a : Arrival) : DispatchState :=
  let st1 := { st with taskCount := st.taskCount - 1 }
  if a.blocks.length = 0 then
    if a.task.errorTotal > 5 then { st1 with taskQueue := [] }
    else { st1 with taskQueue := a.task :: st1.taskQueue }
  else
    { st1 with
      workers := a.worker :: st1.workers,
      insertList := fun n => if n = a.task.startNumber then some a.blocks else st1.insertList n }

/-- C4: a task finishing with an empty block list arrives with
`errorTotal` incremented and is pushed back onto the queue while its
failure count is within the budget; once the incremented count exceeds 5
the entire queue is cleared, after which `getReadyTask` can start no
queued task — the round aborts while `assignDownloadTask` (and with it the
Sync Controller loop) continues normally. -/
theorem taskFailure_policy (st : DispatchState) (t : DispatchTask) (w : WorkerStatus) :
    ((doFinish t [] w).task.errorTotal = t.errorTotal + 1)
    ∧ (t.errorTotal + 1 ≤ 5 →
        (collectStep st (doFinish t [] w)).taskQueue
          = { t with errorTotal := t.errorTotal + 1 } :: st.taskQueue)
    ∧ (t.errorTotal + 1 > 5 →
        (collectStep st (doFinish t [] w)).taskQueue = []
        ∧ ∀ ws : List WorkerStatus,
            getReadyTask ws (collectStep st (doFinish t [] w)).taskQueue = none) := by
  refine ⟨rfl, ?_, ?_⟩
  · intro hbudget
    rw [collectStep]
    rw [if_pos (show (doFinish t [] w).blocks.length = 0 from rfl)]
    rw [if_neg (show ¬ (doFinish t [] w).task.errorTotal > 5 from by
      show ¬ t.errorTotal + 1 > 5
      omega)]
    rfl
  · intro hover
    have hq : (collectStep st (doFinish t [] w)).taskQueue = [] := by
      rw [collectStep]
      rw [if_pos (show (doFinish t [] w).blocks.length = 0 from rfl)]
      rw [if_pos (show (doFinish t [] w).task.errorTotal > 5 from by
        show t.errorTotal + 1 > 5
        omega)]
    refine ⟨hq, fun ws => ?_⟩
    rw [hq]
    cases ws <;> rfl

/-- Closed witness for C4 at a concrete dispatcher state and task. -/
theorem taskFailure_policy_witness :
    ((doFinish ⟨1, 0, 2, 0, 5⟩ [] ⟨1, 100⟩).task.errorTotal = 5 + 1)
    ∧ ((5 : Nat) + 1 ≤ 5 →
        (collectStep ⟨[], [], 1, fun _ => none⟩ (doFinish ⟨1, 0, 2, 0, 5⟩ [] ⟨1, 100⟩)).taskQueue
          = ⟨1, 0, 2, 0, 5 + 1⟩ :: (DispatchState.mk [] [] 1 fun _ => none).taskQueue)
    ∧ ((5 : Nat) + 1 > 5 →
        (collectStep ⟨[], [], 1, fun _ => none⟩ (doFinish ⟨1, 0, 2, 0, 5⟩ [] ⟨1, 100⟩)).taskQueue = []
        ∧ ∀ ws : List WorkerStatus,
            getReadyTask ws
              (collectStep ⟨[], [], 1, fun _ => none⟩
                (doFinish ⟨1, 0, 2, 0, 5⟩ [] ⟨1, 100⟩)).taskQueue = none) :=
  taskFailure_policy ⟨[], [], 1, fun _ => none⟩ ⟨1, 0, 2, 0, 5⟩ ⟨1, 100⟩

/-! ## In-order insertion (`assignDownloadTask`, lines 521-535) -/

/-- Outcome of the insert phase: the chain-store state, the ghost log of
start numbers handed to `InsertChain` in call order (not in the source;
it only lets the insertion order be stated), the returned height and
whether an error was propagated. -/
structure InsertOutcome (σ : Type) where
  store : σ
  log : List Nat
  height : Nat
  errored : Bool

/-- The insert phase (lines 521-535): walk the skeleton start numbers in
ascending order; return `start - 1` at the first start whose task never
completed; call `InsertChain` through the oracle `ins` (returning `some
index` of the first failed block on error), retry once on failure (the
one-second sleep has no functional effect and is not modelled), and on a
second failure return the height just below the first failed block,
flagging the error.  On full success return `final`
(`numbers[len(numbers)-1]`). -/
def insertPhase {σ : Type} (ins : σ → List Block → σ × Option Nat)
    (insertList : Nat → Option (List Block)) (final : Nat) :
    σ → List Nat → InsertOutcome σ
  | store, [] => ⟨store, [], final, false⟩
  | store, start :: rest =>
    match insertList start with
    | none => ⟨store, [], start - 1, false⟩
    | some blocks =>
      match ins store blocks with
      | (store1, none) =>
          let o := insertPhase ins insertList final store1 rest
          { o with log := start :: o.log }
      | (store1, some _) =>
          match ins store1 blocks with
          | (store2, none) =>
              let o := insertPhase ins insertList final store2 rest
              { o with log := start :: o.log }
          | (store2, some index) =>
              ⟨store2, [start],
                (blocks.getD index ⟨⟨0, 0, 0⟩, []⟩).header.number - 1, true⟩

theorem insertPhase_cons_missing {σ : Type} (ins : σ → List Block → σ × Option Nat)
    (il : Nat → Option (List Block)) (final : Nat) (store : σ) (s : Nat)
    (rest : List Nat) (h : il s = none) :
    insertPhase ins il final store (s :: rest) = ⟨store, [], s - 1, false⟩ := by
  rw [insertPhase, h]

theorem insertPhase_cons_ok {σ : Type} (ins : σ → List Block → σ × Option Nat)
    (il : Nat → Option (List Block)) (final : Nat) (store store1 : σ) (s : Nat)
    (rest : List Nat) (blocks : List Block) (h : il s = some blocks)
    (h1 : ins store blocks = (store1, none)) :
    insertPhase ins il final store (s :: rest)
      = { insertPhase ins il final store1 rest with
          log := s :: (insertPhase ins il final store1 rest).log } := by
  rw [insertPhase, h]
  dsimp only
  rw [h1]

theorem insertPhase_cons_retry_ok {σ : Type} (ins : σ → List Block → σ × Option Nat)
    (il : Nat → Option (List Block)) (final : Nat) (store store1 store2 : σ)
    (s e1 : Nat) (rest : List Nat) (blocks : List Block) (h : il s = some blocks)
    (h1 : ins store blocks = (store1, some e1)) (h2 : ins store1 blocks = (store2, none)) :
    insertPhase ins il final store (s :: rest)
      = { insertPhase ins il final store2 rest with
          log := s :: (insertPhase ins il final store2 rest).log } := by
  rw [insertPhase, h]
  dsimp only
  rw [h1]
  dsimp only
  rw [h2]

theorem insertPhase_cons_retry_fail {σ : Type} (ins : σ → List Block → σ × Option Nat)
    (il : Nat → Option (List Block)) (final : Nat) (store store1 store2 : σ)
    (s e1 index : Nat) (rest : List Nat) (blocks : List Block) (h : il s = some blocks)
    (h1 : ins store blocks = (store1, some e1))
    (h2 : ins store1 blocks = (store2, some index)) :
    insertPhase ins il final store (s :: rest)
      = ⟨store2, [s], (blocks.getD index ⟨⟨0, 0, 0⟩, []⟩).header.number - 1, true⟩ := by
  rw [insertPhase, h]
  dsimp only
  rw [h1]
  dsimp only
  rw [h2]

/-- C3: (1) the sequence of `InsertChain` calls follows the skeleton's
start numbers in order — the log is a prefix of `starts`, so with `starts`
strictly ascending the insertion order is strictly ascending no matter in
which order tasks completed (the insert map abstracts completion order);
(2) when the store never rejects, no error is propagated and the returned
height is `firstMissing - 1` at the first never-completed start, or
`final` when every start completed; (3) a failed insert is retried
exactly once: a second failure stops with the height just below the first
failed block and the error flag, while (4) a successful retry continues
the walk. -/
theorem insertPhase_spec {σ : Type} (ins : σ → List Block → σ × Option Nat)
    (insertList : Nat → Option (List Block)) (final : Nat) :
    (∀ (store : σ) (starts : List Nat),
        (insertPhase ins insertList final store starts).log <+: starts)
    ∧ (∀ (store : σ) (starts : List Nat), (∀ s b, (ins s b).2 = none) →
        (insertPhase ins insertList final store starts).errored = false
        ∧ (insertPhase ins insertList final store starts).height
            = (match starts.find? (fun s => (insertList s).isNone) with
               | some m => m - 1
               | none => final))
    ∧ (∀ (store store1 store2 : σ) (s e1 index : Nat) (rest : List Nat)
          (blocks : List Block),
        insertList s = some blocks →
        ins store blocks = (store1, some e1) →
        ins store1 blocks = (store2, some index) →
        insertPhase ins insertList final store (s :: rest)
          = ⟨store2, [s], (blocks.getD index ⟨⟨0, 0, 0⟩, []⟩).header.number - 1, true⟩)
    ∧ (∀ (store store1 store2 : σ) (s e1 : Nat) (rest : List Nat) (blocks : List Block),
        insertList s = some blocks →
        ins store blocks = (store1, some e1) →
        ins store1 blocks = (store2, none) →
        insertPhase ins insertList final store (s :: rest)
          = { insertPhase ins insertList final store2 rest with
              log := s :: (insertPhase ins insertList final store2 rest).log }) := by
  refine ⟨?_, ?_, ?_, ?_⟩
  · intro store starts
    induction starts generalizing store with
    | nil => exact List.prefix_refl _
    | cons s rest ih =>
        cases hil : insertList s with
        | none =>
            rw [insertPhase_cons_missing ins insertList final store s rest hil]
            exact ⟨s :: rest, rfl⟩
        | some blocks =>
            rcases hi1 : ins store blocks with ⟨store1, r1⟩
            cases r1 with
            | none =>
                rw [insertPhase_cons_ok ins insertList final store store1 s rest blocks
                  hil hi1]
                obtain ⟨tl, htl⟩ := ih store1
                refine ⟨tl, ?_⟩
                show (s :: (insertPhase ins insertList final store1 rest).log) ++ tl
                  = s :: rest
                rw [List.cons_append, htl]
            | some e1 =>
                rcases hi2 : ins store1 blocks with ⟨store2, r2⟩
                cases r2 with
                | none =>
                    rw [insertPhase_cons_retry_ok ins insertList final store store1 store2
                      s e1 rest blocks hil hi1 hi2]
                    obtain ⟨tl, htl⟩ := ih store2
                    refine ⟨tl, ?_⟩
                    show (s :: (insertPhase ins insertList final store2 rest).log) ++ tl
                      = s :: rest
                    rw [List.cons_append, htl]
                | some index =>
                    rw [insertPhase_cons_retry_fail ins insertList final store store1 store2
                      s e1 index rest blocks hil hi1 hi2]
                    exact ⟨rest, rfl⟩
  · intro store starts hins
    induction starts generalizing store with
    | nil => exact ⟨rfl, rfl⟩
    | cons s rest ih =>
        cases hil : insertList s with
        | none =>
            rw [insertPhase_cons_missing ins insertList final store s rest hil]
            refine ⟨rfl, ?_⟩
            simp [hil]
        | some blocks =>
            rcases hi1 : ins store blocks with ⟨store1, r1⟩
            have hr1 : r1 = none := by
              have := hins store blocks
              rw [hi1] at this
              exact this
            subst hr1
            rw [insertPhase_cons_ok ins insertList final store store1 s rest blocks hil hi1]
            obtain ⟨ha, hb⟩ := ih store1
            refine ⟨ha, ?_⟩
            show (insertPhase ins insertList final store1 rest).height = _
            rw [hb]
            simp [hil]
  · intro store store1 store2 s e1 index rest blocks hil hi1 hi2
    exact insertPhase_cons_retry_fail ins insertList final store store1 store2
      s e1 index rest blocks hil hi1 hi2
  · intro store store1 store2 s e1 rest blocks hil hi1 hi2
    exact insertPhase_cons_retry_ok ins insertList final store store1 store2
      s e1 rest blocks hil hi1 hi2

/-- A store oracle for the C3 witness that always accepts. -/
def insOk : Nat → List Block → Nat × Option Nat := fun s _ => (s + 1, none)

/-- An insert map for the C3 witness: only start 1 completed. -/
def ilEx : Nat → Option (List Block) := fun n => if n = 1 then some [] else none

/-- Closed witness for C3: the log of a concrete insert run is a prefix of
its start list, and with an always-accepting store the walk over
`[1, 2]` stops at the missing start 2 returning 1 with no error. -/
theorem insertPhase_spec_witness :
    (insertPhase insOk ilEx 3 0 [1, 2]).log <+: [1, 2]
    ∧ ((insertPhase insOk ilEx 3 0 [1, 2]).errored = false
        ∧ (insertPhase insOk ilEx 3 0 [1, 2]).height
            = (match [1, 2].find? (fun s => (ilEx s).isNone) with
               | some m => m - 1
               | none => 3)) :=
  ⟨(insertPhase_spec insOk ilEx 3).1 0 [1, 2],
   (insertPhase_spec insOk ilEx 3).2.1 0 [1, 2] (fun _ _ => rfl)⟩

/-! ## Skeleton construction (`multiplexDownload`, lines 369-411) -/

/-- The skeleton-number loop of lines 385-387 (`downloadSkip + 1 = 65`):
`downloadStart, downloadStart + 65, …` while `≤ downloadEnd`.  Structural
fuel; any `fuel ≥ stop + 1 - i` reproduces the loop. -/
def skelNumbers : Nat → Nat → Nat → List Nat
  | 0, _, _ => []
  | fuel + 1, stop, i => if i ≤ stop then i :: skelNumbers fuel stop (i + 65) else []

/-- Lines 408-411: a one-point skeleton is duplicated so that at least one
adjacent pair exists. -/
def duplicateLone (nh : List Nat × List Nat) : List Nat × List Nat :=
  if nh.1.length = 1 then (nh.1 ++ nh.1, nh.2 ++ nh.2) else nh

/-- The skeleton-building part of `multiplexDownload` (lines 369-411),
against an honest fixed remote chain: bound the range to 1024 blocks,
collect the stride-65 numbers, fetch their hashes with one skip-64
request, extend with the single hash at `downloadEnd` when the last
skeleton number falls short, and duplicate a lone point.  `none` models
`return false` (empty range, or a reply of the wrong length).
`downloadAmount` is `uint64` in the source; the `Nat` model is exact for
`ancestor ≤ statusNumber`. -/
def buildSkeleton (cfg : SyncConfig) (ancestor statusNumber : Nat) :
    Option (List Nat × List Nat) :=
  let downloadStart := ancestor + 1
  let downloadAmount := statusNumber - ancestor
  if downloadAmount = 0 then none
  else
    let downloadAmount := min downloadAmount 1024
    let downloadEnd := ancestor + downloadAmount
    let numbers := skelNumbers (downloadEnd + 1 - downloadStart) downloadEnd downloadStart
    let hashes := getBlockHashesReply cfg downloadStart numbers.length 64 false
    if hashes.length ≠ numbers.length then none
    else
      let nh :=
        if numbers.getLast? ≠ some downloadEnd then
          let hash2 := getBlockHashesReply cfg downloadEnd 1 0 false
          if hash2.length ≠ 1 then none
          else some (numbers ++ [downloadEnd], hashes ++ hash2)
        else some (numbers, hashes)
      nh.map duplicateLone

/-- Lines 470-478: one task per adjacent skeleton pair, covering
`[numbers[i-1], numbers[i]]` with those boundary hashes, listed in the
order the dispatcher pops them. -/
def mkTasks : List Nat → List Nat → List (Nat × Nat × Nat × Nat)
  | n0 :: n1 :: ns, h0 :: h1 :: hs => (n0, h0, n1, h1) :: mkTasks (n1 :: ns) (h1 :: hs)
  | _, _ => []

/-- The skeleton as the spec describes it: the numbers `ancestor+1,
ancestor+1+65, ancestor+1+130, …` up to at most
`end = ancestor + min(remote_head − ancestor, 1024)`; `end` appended when
the last stride point falls short of it; a lone point duplicated. -/
def specSkeleton (ancestor statusNumber : Nat) : List Nat :=
  let endN := ancestor + min (statusNumber - ancestor) 1024
  let start := ancestor + 1
  let base := (List.range ((endN - start) / 65 + 1)).map (fun k => start + 65 * k)
  let withEnd := if base.getLast? = some endN then base else base ++ [endN]
  if withEnd.length = 1 then withEnd ++ withEnd else withEnd

/-- Closed form of the skeleton-number loop. -/
theorem skelNumbers_eq : ∀ (fuel stop i : Nat), stop + 1 - i ≤ fuel →
    skelNumbers fuel stop i
      = (if i ≤ stop then (List.range ((stop - i) / 65 + 1)).map (fun k => i + 65 * k)
         else []) := by
  intro fuel
  induction fuel with
  | zero =>
      intro stop i hf
      rw [skelNumbers, if_neg (by omega)]
  | succ fn ih =>
      intro stop i hf
      rw [skelNumbers]
      by_cases hi : i ≤ stop
      · rw [if_pos hi, if_pos hi]
        rw [ih stop (i + 65) (by omega)]
        by_cases hi2 : i + 65 ≤ stop
        · rw [if_pos hi2]
          have hstep : (List.range ((stop - i) / 65 + 1)).map (fun k => i + 65 * k)
              = i :: (List.range ((stop - (i + 65)) / 65 + 1)).map
                  (fun k => i + 65 + 65 * k) := by
            have hcnt : (stop - i) / 65 + 1 = ((stop - (i + 65)) / 65 + 1) + 1 := by omega
            rw [hcnt, List.range_succ_eq_map, List.map_cons, List.map_map]
            have hfun : ((fun k => i + 65 * k) ∘ Nat.succ)
                = fun k => i + 65 + 65 * k := by
              funext k
              show i + 65 * (k + 1) = i + 65 + 65 * k
              omega
            rw [hfun]
            simp
          rw [hstep]
        · rw [if_neg hi2]
          have hone : (stop - i) / 65 + 1 = 1 := by omega
          rw [hone, show List.range 1 = [0] from rfl]
          simp
      · rw [if_neg hi, if_neg hi]

/-- The forward stride reply against an honest peer: when every requested
height exists, the reply is exactly the strided hashes. -/
theorem reply_forward_stride (cfg : SyncConfig) (number skip : Nat) :
    ∀ amt, (∀ i, i < amt → number + i * (skip + 1) ≤ cfg.peerHead) →
    getBlockHashesReply cfg number amt skip false
      = (List.range amt).map (fun i => cfg.pc (number + i * (skip + 1))) := by
  intro amt
  induction amt with
  | zero => intro _; simp [getBlockHashesReply]
  | succ n ih =>
      intro h
      unfold getBlockHashesReply at ih ⊢
      rw [List.range_succ, List.filterMap_append, ih (fun i hi => h i (by omega)),
        List.map_append]
      simp [h n (by omega)]

theorem mkTasks_ne_nil (f : Nat → Nat) :
    ∀ ns : List Nat, 2 ≤ ns.length → mkTasks ns (ns.map f) ≠ [] := by
  intro ns h
  match ns with
  | n0 :: n1 :: rest =>
      rw [List.map_cons, List.map_cons, mkTasks]
      exact List.cons_ne_nil _ _

/-- The skeleton always has at least two points. -/
theorem specSkeleton_length (ancestor statusNumber : Nat) :
    2 ≤ (specSkeleton ancestor statusNumber).length := by
  simp only [specSkeleton]
  set endN := ancestor + min (statusNumber - ancestor) 1024 with hendN
  set base := (List.range ((endN - (ancestor + 1)) / 65 + 1)).map
    (fun k => ancestor + 1 + 65 * k) with hbase
  have hbl : 1 ≤ base.length := by
    rw [hbase, List.length_map, List.length_range]
    omega
  by_cases hlast : base.getLast? = some endN
  · rw [if_pos hlast]
    by_cases h1 : base.length = 1
    · rw [if_pos h1]
      simp [h1]
    · rw [if_neg h1]
      omega
  · rw [if_neg hlast]
    have h1 : ¬ (base ++ [endN]).length = 1 := by
      rw [List.length_append, List.length_singleton]
      omega
    rw [if_neg h1, List.length_append, List.length_singleton]
    omega

/-- C9: against an honest fixed remote chain with head `statusNumber`, the
skeleton construction succeeds and produces exactly the spec's skeleton —
`ancestor+1, ancestor+1+65, …` up to `end = ancestor + min(statusNumber −
ancestor, 1024)`, with `end` appended when the last stride point falls
short and a lone point duplicated — paired with those numbers' remote
hashes fetched by the one skip-64 request (plus the single hash at `end`);
the round range spans at most 1024 blocks, the skeleton has at least two
points and at least one adjacent-pair task is built from it. -/
theorem multiplexDownload_skeleton (cfg : SyncConfig) (ancestor statusNumber : Nat)
    (ha : ancestor < statusNumber) (hph : cfg.peerHead = statusNumber) :
    buildSkeleton cfg ancestor statusNumber
      = some (specSkeleton ancestor statusNumber,
          (specSkeleton ancestor statusNumber).map cfg.pc)
    ∧ (ancestor + min (statusNumber - ancestor) 1024) - (ancestor + 1) + 1 ≤ 1024
    ∧ 2 ≤ (specSkeleton ancestor statusNumber).length
    ∧ mkTasks (specSkeleton ancestor statusNumber)
        ((specSkeleton ancestor statusNumber).map cfg.pc) ≠ [] := by
  refine ⟨?_, by omega, specSkeleton_length ancestor statusNumber,
    mkTasks_ne_nil cfg.pc _ (specSkeleton_length ancestor statusNumber)⟩
  have hmin1 : 1 ≤ min (statusNumber - ancestor) 1024 := by omega
  simp only [buildSkeleton, specSkeleton]
  rw [if_neg (show ¬ (statusNumber - ancestor = 0) from by omega)]
  set endN := ancestor + min (statusNumber - ancestor) 1024 with hendN
  set start := ancestor + 1 with hstart
  have hse : start ≤ endN := by omega
  have hee : endN ≤ cfg.peerHead := by omega
  rw [skelNumbers_eq (endN + 1 - start) endN start (Nat.le_refl _), if_pos hse]
  set q := (endN - start) / 65 with hq
  set base := (List.range (q + 1)).map (fun k => start + 65 * k) with hbase
  have hbl : base.length = q + 1 := by
    rw [hbase, List.length_map, List.length_range]
  have hq65 : 65 * q ≤ endN - start := by omega
  have hcond : ∀ i, i < q + 1 → start + i * (64 + 1) ≤ cfg.peerHead := by
    intro i hi
    have h65 : i * 65 ≤ q * 65 := Nat.mul_le_mul_right _ (by omega)
    omega
  rw [hbl, reply_forward_stride cfg start 64 (q + 1) hcond]
  have hmapeq : (List.range (q + 1)).map (fun i => cfg.pc (start + i * (64 + 1)))
      = base.map cfg.pc := by
    rw [hbase, List.map_map]
    congr 1
    funext k
    show cfg.pc (start + k * (64 + 1)) = cfg.pc (start + 65 * k)
    congr 1
    omega
  rw [hmapeq]
  rw [if_neg (show ¬ ((base.map cfg.pc).length ≠ q + 1) from by
    simp [List.length_map, hbl])]
  by_cases hlast : base.getLast? = some endN
  · rw [if_neg (show ¬ (base.getLast? ≠ some endN) from by simp [hlast])]
    rw [if_pos hlast]
    rw [Option.map_some']
    by_cases h1 : base.length = 1
    · rw [if_pos h1]
      rw [duplicateLone, if_pos (show (base, base.map cfg.pc).1.length = 1 from h1),
        List.map_append]
    · rw [if_neg h1]
      rw [duplicateLone, if_neg (show ¬ (base, base.map cfg.pc).1.length = 1 from h1)]
  · rw [if_pos (show base.getLast? ≠ some endN from hlast)]
    have hone : getBlockHashesReply cfg endN 1 0 false = [cfg.pc endN] := by
      rw [reply_forward_stride cfg endN 0 1 (by
        intro i hi
        have : i = 0 := by omega
        subst this
        simpa using hee)]
      rw [show List.range 1 = [0] from rfl]
      simp
    rw [hone]
    rw [if_neg (show ¬ (([cfg.pc endN].length ≠ 1)) from by simp)]
    rw [Option.map_some']
    have hlen1 : ¬ (base ++ [endN], base.map cfg.pc ++ [cfg.pc endN]).1.length = 1 := by
      show ¬ (base ++ [endN]).length = 1
      rw [List.length_append, List.length_singleton]
      omega
    rw [duplicateLone, if_neg hlen1]
    rw [if_neg hlast]
    have hlen2 : ¬ (base ++ [endN]).length = 1 := by
      rw [List.length_append, List.length_singleton]
      omega
    rw [if_neg hlen2, List.map_append]
    rfl

/-- Concrete configuration for the C9 witness: remote head 3, hash of
height `n` is `7 n`. -/
def cfgSkel : SyncConfig :=
  { lc := fun n => n, localHead := 0, pc := fun n => n * 7, peerHead := 3 }

/-- Closed witness for C9: from ancestor 0 against a remote head at 3, the
skeleton is `[1, 3]` (stride point 1, then the appended end 3) with the
matching hashes, and one task is built. -/
theorem multiplexDownload_skeleton_witness :
    buildSkeleton cfgSkel 0 3
      = some (specSkeleton 0 3, (specSkeleton 0 3).map cfgSkel.pc)
    ∧ (0 + min (3 - 0) 1024) - (0 + 1) + 1 ≤ 1024
    ∧ 2 ≤ (specSkeleton 0 3).length
    ∧ mkTasks (specSkeleton 0 3) ((specSkeleton 0 3).map cfgSkel.pc) ≠ [] :=
  multiplexDownload_skeleton cfgSkel 0 3 (by decide) (by decide)

end Fractal
